import Mathlib

/-!
Shallow embedding of `binary.py`, a bit-serial arithmetic library:
non-negative integers are stored as canonical little-endian byte
sequences (`Bits`), and addition, subtraction, multiplication and
division are computed gate by gate from a one-bit full adder.

Python machine integers are unbounded, so all values are modelled as
`Nat`; the bitwise operators `&`, `|`, `^`, `<<`, `>>` become `&&&`,
`|||`, `^^^`, `<<<`, `>>>` on `Nat`.  Generators are modelled as the
lists of the values they yield; `raise ZeroDivisionError` becomes
`Option.none`.
-/

/-- `Bits.how_many_bytes(value)`: the `while value > limit` loop with
`limit = 2 ** 8 - 1 = 255`, counting how many 8-bit bytes the value
needs (at least one).  The `size` parameter of the Python code is always
its default `CHUNK = 8`. -/
def howManyBytes (value : Nat) : Nat :=
  if 255 < value then howManyBytes (value >>> 8) + 1 else 1
decreasing_by
  simp only [Nat.shiftRight_eq_div_pow]
  exact Nat.div_lt_self (by omega) (by norm_num)

/-- `Bits.number_to_bits(n)`: the generator
`(bit_slice(n, i) for i in range(length))` with
`bit_slice(n, i) = (n & (mask << 8*i)) >> 8*i` and `mask = 255`,
producing the little-endian byte list of `n`. -/
def numberToBits (n : Nat) : List Nat :=
  (List.range (howManyBytes n)).map fun i => (n &&& (255 <<< (8 * i))) >>> (8 * i)

/-- The `Bits` value class: a `bytes` object, i.e. a sequence of bytes
(little-endian, byte i weighing 256^i). -/
structure Bits where
  bytes : List Nat
deriving DecidableEq

/-- `Bits.__new__(cls, n)`: build the byte sequence of `n` with
`number_to_bits`. -/
def Bits.ofNat (n : Nat) : Bits :=
  ⟨numberToBits n⟩

/-- Helper for `to_number`: Horner form of the source's
`sum(byte_ * (2 ** (8 * i)) for i, byte_ in enumerate(...))`. -/
def toNumberList : List Nat → Nat
  | [] => 0
  | b :: rest => b + 256 * toNumberList rest

/-- `Bits.to_number(self)`: the weighted byte sum Σ bytes[i]·256^i. -/
def Bits.toNumber (v : Bits) : Nat :=
  toNumberList v.bytes

/-- The inner `while value: yield value & 1; value >>= 1` loop of
`Bits.__iter__`: the significant bits of one byte, LSB first. -/
def byteBits (value : Nat) : List Nat :=
  if value = 0 then [] else (value &&& 1) :: byteBits (value >>> 1)
decreasing_by
  simp only [Nat.shiftRight_eq_div_pow]
  exact Nat.div_lt_self (by omega) (by norm_num)

/-- The `for byte_number, value in enumerate(...)` loop of
`Bits.__iter__`: every byte yields its significant bits LSB first, and
every byte except the last is zero-padded to `CHUNK = 8` bits
(`yield from (0 for _ in range(size - count))`). -/
def iterBytes : List Nat → List Nat
  | [] => []
  | [value] => byteBits value
  | value :: rest =>
      byteBits value ++ List.replicate (8 - (byteBits value).length) 0 ++ iterBytes rest

/-- `Bits.__iter__(self)`: the LSB-first bit view; the single value zero
(`self == bytes([0])`) yields the single bit 0. -/
def Bits.iter (v : Bits) : List Nat :=
  if v.bytes = [0] then [0] else iterBytes v.bytes

/-- `Bits.__reversed__(self)`: `reversed(list(self))`, the forward bit
sequence reversed. -/
def Bits.reversedBits (v : Bits) : List Nat :=
  v.iter.reverse

/-- `Bits.__lshift__(self, other)`: `Bits(self.to_number() << other.to_number())`. -/
def Bits.shiftLeft (v other : Bits) : Bits :=
  Bits.ofNat (v.toNumber <<< other.toNumber)

/-- `fulladder(a, b, cin)`: sum bit `(a ^ b) ^ cin` and carry-out
`a & b | cin & (a ^ b)`. -/
def fulladder (a b cin : Nat) : Nat × Nat :=
  ((a ^^^ b) ^^^ cin, (a &&& b) ||| (cin &&& (a ^^^ b)))

/-- `itertools.zip_longest(n, m, fillvalue=0)` on two lists. -/
def zipLongest : List Nat → List Nat → List (Nat × Nat)
  | [], [] => []
  | a :: as, [] => (a, 0) :: zipLongest as []
  | [], b :: bs => (0, b) :: zipLongest [] bs
  | a :: as, b :: bs => (a, b) :: zipLongest as bs

/-- The `for i, (a, b) in enumerate(zip_longest(n, m, fillvalue=0))`
loop of `adder`, plus the trailing `acc |= cout << (i + 1)`: `i` is the
running position, `acc` the accumulated sum bits, `cin` the carry
(after the last iteration `cin` holds the final `cout`, and `i` has
become the list length, i.e. the last index plus one).  The source
raises `NameError` on two empty iterators; that case is unreachable
because a `Bits` bit view is never empty. -/
def adderAux : List (Nat × Nat) → Nat → Nat → Nat → Nat
  | [], i, acc, cin => acc ||| (cin <<< i)
  | (a, b) :: rest, i, acc, cin =>
      adderAux rest (i + 1) (acc ||| ((fulladder a b cin).1 <<< i)) (fulladder a b cin).2

/-- `adder(n, m)`: ripple-carry addition over the two bit views,
starting from `acc = cout = cin = 0`. -/
def adder (n m : Bits) : Nat :=
  adderAux (zipLongest n.iter m.iter) 0 0 0

/-- The loop of `subtractor`: each of `m`'s bits is complemented
(`b ^= inverter` with `inverter = 1`), the carry is threaded through
`fulladder`, and the final carry-out is discarded. -/
def subtractorAux : List (Nat × Nat) → Nat → Nat → Nat → Nat
  | [], _, acc, _ => acc
  | (a, b) :: rest, i, acc, cout =>
      subtractorAux rest (i + 1) (acc ||| ((fulladder a (b ^^^ 1) cout).1 <<< i))
        (fulladder a (b ^^^ 1) cout).2

/-- `subtractor(n, m)`: one's-complement-plus-carry-in subtraction,
seeded with `acc = 0` and `cout = 1`. -/
def subtractor (n m : Bits) : Nat :=
  subtractorAux (zipLongest n.iter m.iter) 0 0 1

/-- The `for bit in m` loop of `multiplier`: shift-and-add with the
accumulator `acc` (a `Bits`) and the position counter `shifter`. -/
def multiplierAux (n : Bits) : List Nat → Bits → Nat → Bits
  | [], acc, _ => acc
  | bit :: rest, acc, shifter =>
      multiplierAux n rest
        (if bit = 1 then Bits.ofNat (adder acc (n.shiftLeft (Bits.ofNat shifter))) else acc)
        (shifter + 1)

/-- `multiplier(n, m)`: run the shift-and-add loop from `Bits(0)` and
read the accumulator back as a number. -/
def multiplier (n m : Bits) : Nat :=
  (multiplierAux n m.iter (Bits.ofNat 0) 0).toNumber

/-- The `for bit in reversed(n)` loop of `divider`: restoring long
division, MSB first.  `quo <<= 1; rem <<= 1; if bit: rem ^= 1;
if rem >= m.to_number(): rem = subtractor(Bits(rem), m); quo ^= 1`. -/
def dividerLoop (m : Bits) : List Nat → Nat → Nat → Nat × Nat
  | [], quo, rem => (quo, rem)
  | bit :: rest, quo, rem =>
      let rem2 := if bit ≠ 0 then (rem <<< 1) ^^^ 1 else rem <<< 1
      if m.toNumber ≤ rem2 then
        dividerLoop m rest ((quo <<< 1) ^^^ 1) (subtractor (Bits.ofNat rem2) m)
      else
        dividerLoop m rest (quo <<< 1) rem2

/-- `divider(n, m)`: `raise ZeroDivisionError` (modelled as `none`)
when `m.to_number() == 0`, otherwise the restoring-division loop from
`rem = quo = 0` over `reversed(n)`. -/
def divider (n m : Bits) : Option (Nat × Nat) :=
  if m.toNumber = 0 then none
  else some (dividerLoop m n.reversedBits 0 0)

/-- Value of an LSB-first bit list: Σ l[i]·2^i (specification helper). -/
def bitsVal : List Nat → Nat
  | [] => 0
  | b :: rest => b + 2 * bitsVal rest

/-- All entries of a list are single bits (specification helper). -/
def IsBitList (l : List Nat) : Prop :=
  ∀ x ∈ l, x ≤ 1

/-! ### Bit-position arithmetic helpers -/

theorem lor_shiftLeft_eq {a : Nat} (b k : Nat) (h : a < 2 ^ k) :
    a ||| (b <<< k) = 2 ^ k * b + a := by
  have hmod : (a ||| (b <<< k)) % 2 ^ k = a := by
    apply Nat.eq_of_testBit_eq
    intro i
    rcases lt_or_le i k with hik | hik
    · simp [Nat.testBit_lor, Nat.testBit_shiftLeft, hik, Nat.not_le.mpr hik]
    · have h1 : a < 2 ^ i := lt_of_lt_of_le h (Nat.pow_le_pow_right (by norm_num) hik)
      simp [Nat.testBit_lor, Nat.testBit_lt_two_pow h1, Nat.not_lt.mpr hik]
  have hdiv : (a ||| (b <<< k)) >>> k = b := by
    apply Nat.eq_of_testBit_eq
    intro i
    have h1 : a < 2 ^ (k + i) := lt_of_lt_of_le h (Nat.pow_le_pow_right (by norm_num) (by omega))
    simp [Nat.testBit_shiftRight, Nat.testBit_lor, Nat.testBit_shiftLeft,
      Nat.testBit_lt_two_pow h1]
  calc a ||| (b <<< k)
      = 2 ^ k * ((a ||| (b <<< k)) / 2 ^ k) + (a ||| (b <<< k)) % 2 ^ k :=
        (Nat.div_add_mod _ _).symm
    _ = 2 ^ k * b + a := by
        rw [← Nat.shiftRight_eq_div_pow, hdiv, hmod]

theorem shiftLeft_one_xor_one (x : Nat) : (x <<< 1) ^^^ 1 = 2 * x + 1 := by
  have h3 : x <<< 1 = 2 * x := by rw [Nat.shiftLeft_eq]; ring
  rw [h3]
  apply Nat.eq_of_testBit_eq
  intro i
  cases i with
  | zero =>
      simp only [Nat.testBit_xor, Nat.testBit_zero]
      simp
  | succ j =>
      have h2 : (2 * x + 1) / 2 = x := by omega
      have h4 : 2 * x / 2 = x := by omega
      rw [Nat.testBit_xor]
      simp only [Nat.testBit_add_one, h2, h4]
      simp

/-! ### Values of bit lists -/

theorem bitsVal_append (xs ys : List Nat) :
    bitsVal (xs ++ ys) = bitsVal xs + 2 ^ xs.length * bitsVal ys := by
  induction xs with
  | nil => simp [bitsVal]
  | cons a xs ih => simp [bitsVal, ih, List.length_cons, pow_succ]; ring

theorem bitsVal_replicate_zero (k : Nat) : bitsVal (List.replicate k 0) = 0 := by
  induction k with
  | zero => rfl
  | succ k ih => simp [List.replicate_succ, bitsVal, ih]

theorem bitsVal_lt {l : List Nat} (h : IsBitList l) : bitsVal l < 2 ^ l.length := by
  induction l with
  | nil => simp [bitsVal]
  | cons a rest ih =>
      have ha : a ≤ 1 := h a (by simp)
      have hr := ih (fun x hx => h x (by simp [hx]))
      simp only [bitsVal, List.length_cons, pow_succ]
      omega

/-! ### The per-byte bit generator -/

theorem byteBits_zero : byteBits 0 = [] := by
  rw [byteBits]
  simp

theorem byteBits_isBitList (v : Nat) : IsBitList (byteBits v) := by
  induction v using Nat.strong_induction_on with
  | _ v ih =>
      rw [byteBits]
      split
      · intro x hx; simp at hx
      · rename_i hv
        intro x hx
        rcases List.mem_cons.mp hx with h | h
        · subst h
          have := Nat.and_one_is_mod v
          omega
        · have hlt : v >>> 1 < v := by
            simp only [Nat.shiftRight_eq_div_pow, pow_one]
            exact Nat.div_lt_self (by omega) (by norm_num)
          exact ih _ hlt x h

theorem bitsVal_byteBits (v : Nat) : bitsVal (byteBits v) = v := by
  induction v using Nat.strong_induction_on with
  | _ v ih =>
      rw [byteBits]
      split
      · simp [bitsVal, *]
      · rename_i hv
        have hlt : v >>> 1 < v := by
          simp only [Nat.shiftRight_eq_div_pow, pow_one]
          exact Nat.div_lt_self (by omega) (by norm_num)
        have h1 := Nat.and_one_is_mod v
        have h2 : v >>> 1 = v / 2 := by
          simp [Nat.shiftRight_eq_div_pow]
        simp only [bitsVal, ih _ hlt]
        omega

theorem byteBits_length (v : Nat) : (byteBits v).length = Nat.size v := by
  induction v using Nat.strong_induction_on with
  | _ v ih =>
      rw [byteBits]
      split
      · rename_i hv; subst hv; simp [Nat.size_zero]
      · rename_i hv
        have hlt : v >>> 1 < v := by
          simp only [Nat.shiftRight_eq_div_pow, pow_one]
          exact Nat.div_lt_self (by omega) (by norm_num)
        have h2 : v >>> 1 = v / 2 := by simp [Nat.shiftRight_eq_div_pow]
        have ihl := ih _ hlt
        simp only [List.length_cons]
        rw [ihl, h2]
        -- size v = size (v / 2) + 1 for v ≠ 0
        have hle : Nat.size v ≤ Nat.size (v / 2) + 1 := by
          rw [Nat.size_le, pow_succ]
          have := Nat.lt_size_self (v / 2)
          omega
        have hge : Nat.size (v / 2) + 1 ≤ Nat.size v := by
          have : Nat.size (v / 2) < Nat.size v := by
            rw [Nat.lt_size]
            rcases Nat.eq_zero_or_pos (v / 2) with h0 | h0
            · rw [h0, Nat.size_zero]; omega
            · have hs : 0 < Nat.size (v / 2) := Nat.size_pos.mpr h0
              have h3 : 2 ^ (Nat.size (v / 2) - 1) ≤ v / 2 := by
                rw [← Nat.lt_size]; omega
              calc 2 ^ Nat.size (v / 2) = 2 * 2 ^ (Nat.size (v / 2) - 1) := by
                    rw [← pow_succ']
                    congr 1
                    omega
                _ ≤ 2 * (v / 2) := by omega
                _ ≤ v := by omega
          omega
        omega

/-! ### The whole-value bit generator -/

theorem iterBytes_isBitList (bs : List Nat) : IsBitList (iterBytes bs) := by
  induction bs with
  | nil => intro x hx; simp [iterBytes] at hx
  | cons b rest ih =>
      cases rest with
      | nil => simpa [iterBytes] using byteBits_isBitList b
      | cons c rest2 =>
          intro x hx
          simp only [iterBytes, List.mem_append] at hx
          rcases hx with (h | h) | h
          · exact byteBits_isBitList b x h
          · have := List.eq_of_mem_replicate h; omega
          · exact ih x h

theorem bitsVal_iterBytes (bs : List Nat) (h : ∀ b ∈ bs, b < 256) :
    bitsVal (iterBytes bs) = toNumberList bs := by
  induction bs with
  | nil => simp [iterBytes, bitsVal, toNumberList]
  | cons b rest ih =>
      cases rest with
      | nil => simp [iterBytes, toNumberList, bitsVal_byteBits]
      | cons c rest2 =>
          have hb : b < 256 := h b (by simp)
          have hlen : (byteBits b).length ≤ 8 := by
            rw [byteBits_length]; exact Nat.size_le.mpr (by norm_num [hb])
          have hrest : ∀ x ∈ c :: rest2, x < 256 := fun x hx => h x (by simp [hx])
          have h8 : (byteBits b).length + (8 - (byteBits b).length) = 8 := by omega
          simp only [iterBytes, bitsVal_append, List.length_append, List.length_replicate,
            bitsVal_replicate_zero, bitsVal_byteBits, ih hrest, h8, toNumberList]
          norm_num

theorem iterBytes_length (bs : List Nat) (hne : bs ≠ []) (h : ∀ b ∈ bs, b < 256) :
    (iterBytes bs).length = 8 * (bs.length - 1) + Nat.size (bs.getLast hne) := by
  induction bs with
  | nil => simp at hne
  | cons b rest ih =>
      cases rest with
      | nil => simp [iterBytes, byteBits_length]
      | cons c rest2 =>
          have hb : b < 256 := h b (by simp)
          have hlen : (byteBits b).length ≤ 8 := by
            rw [byteBits_length]; exact Nat.size_le.mpr (by norm_num [hb])
          have hrest : ∀ x ∈ c :: rest2, x < 256 := fun x hx => h x (by simp [hx])
          have ihr := ih (by simp) hrest
          simp only [iterBytes, List.length_append, List.length_replicate, ihr,
            List.getLast_cons (by simp : (c :: rest2) ≠ []), List.length_cons]
          omega

/-! ### The byte decomposition built by `number_to_bits` -/

theorem slice_eq (n k : Nat) : (n &&& (255 <<< k)) >>> k = (n >>> k) % 256 := by
  have h255 : (255 : Nat) = 2 ^ 8 - 1 := by norm_num
  have h256 : (256 : Nat) = 2 ^ 8 := by norm_num
  rw [h255, h256]
  apply Nat.eq_of_testBit_eq
  intro i
  simp only [Nat.testBit_shiftRight, Nat.testBit_land, Nat.testBit_shiftLeft,
    Nat.testBit_mod_two_pow, Nat.testBit_two_pow_sub_one]
  have h1 : k ≤ k + i := by omega
  have h2 : k + i - k = i := by omega
  simp [h1, h2, Bool.and_comm]

theorem numberToBits_eq (n : Nat) :
    numberToBits n = (List.range (howManyBytes n)).map fun i => (n >>> (8 * i)) % 256 := by
  unfold numberToBits
  exact List.map_congr_left fun i _ => slice_eq n (8 * i)

theorem howManyBytes_pos (n : Nat) : 1 ≤ howManyBytes n := by
  rw [howManyBytes]; split <;> omega

theorem lt_base_pow_howManyBytes (n : Nat) : n < 256 ^ howManyBytes n := by
  induction n using Nat.strong_induction_on with
  | _ n ih =>
      rw [howManyBytes]
      split
      · rename_i hn
        have h8 : n >>> 8 = n / 256 := by norm_num [Nat.shiftRight_eq_div_pow]
        have hlt : n >>> 8 < n := by rw [h8]; exact Nat.div_lt_self (by omega) (by norm_num)
        have hih := ih _ hlt
        rw [h8] at hih ⊢
        rw [pow_succ]
        omega
      · rename_i hn
        rw [pow_one]
        omega

theorem base_pow_le_of_pos (n : Nat) (hn : 0 < n) :
    256 ^ (howManyBytes n - 1) ≤ n := by
  induction n using Nat.strong_induction_on with
  | _ n ih =>
      rw [howManyBytes]
      split
      · rename_i h255
        have h8 : n >>> 8 = n / 256 := by norm_num [Nat.shiftRight_eq_div_pow]
        rw [h8]
        have hlt : n / 256 < n := Nat.div_lt_self (by omega) (by norm_num)
        have hpos : 0 < n / 256 := by omega
        have hih := ih _ hlt hpos
        have hL := howManyBytes_pos (n / 256)
        have hXp : (256:Nat) ^ (howManyBytes (n / 256) + 1 - 1)
            = 256 ^ (howManyBytes (n / 256) - 1) * 256 := by
          rw [← pow_succ]
          congr 1
          omega
        rw [hXp]
        omega
      · rename_i h255
        simpa using hn

theorem toNumberList_slices (L : Nat) : ∀ n : Nat,
    toNumberList ((List.range L).map fun i => (n >>> (8 * i)) % 256) = n % 256 ^ L := by
  induction L with
  | zero => intro n; simp [toNumberList, Nat.mod_one]
  | succ L ih =>
      intro n
      rw [List.range_succ_eq_map, List.map_cons, List.map_map]
      have hcomp : ((List.range L).map ((fun i => (n >>> (8 * i)) % 256) ∘ Nat.succ))
          = (List.range L).map fun i => ((n >>> 8) >>> (8 * i)) % 256 := by
        apply List.map_congr_left
        intro i _
        simp only [Function.comp_apply]
        rw [← Nat.shiftRight_add]
        congr 2
        omega
      rw [hcomp]
      simp only [toNumberList]
      rw [ih (n >>> 8)]
      have h8 : n >>> 8 = n / 256 := by norm_num [Nat.shiftRight_eq_div_pow]
      have h0 : n >>> (8 * 0) = n := by norm_num
      rw [h0, h8, pow_succ', Nat.mod_mul]

theorem toNumber_ofNat (n : Nat) : (Bits.ofNat n).toNumber = n := by
  show toNumberList (numberToBits n) = n
  rw [numberToBits_eq, toNumberList_slices]
  exact Nat.mod_eq_of_lt (lt_base_pow_howManyBytes n)

theorem numberToBits_length (n : Nat) : (numberToBits n).length = howManyBytes n := by
  simp [numberToBits]

theorem numberToBits_lt (n : Nat) : ∀ b ∈ numberToBits n, b < 256 := by
  rw [numberToBits_eq]
  intro b hb
  simp only [List.mem_map] at hb
  obtain ⟨i, _, rfl⟩ := hb
  exact Nat.mod_lt _ (by norm_num)

theorem howManyBytes_zero : howManyBytes 0 = 1 := by
  rw [howManyBytes]
  norm_num

theorem ofNat_zero_bytes : (Bits.ofNat 0).bytes = [0] := by
  show numberToBits 0 = [0]
  rw [numberToBits_eq, howManyBytes_zero]
  simp

theorem numberToBits_ne_nil (n : Nat) : numberToBits n ≠ [] := by
  have h1 := numberToBits_length n
  have h2 := howManyBytes_pos n
  intro h
  rw [h] at h1
  simp at h1
  omega

theorem numberToBits_getLast (n : Nat) (hn : 0 < n) :
    (numberToBits n).getLast (numberToBits_ne_nil n) = n >>> (8 * (howManyBytes n - 1)) := by
  obtain ⟨K, hK⟩ : ∃ K, howManyBytes n = K + 1 :=
    ⟨howManyBytes n - 1, by have := howManyBytes_pos n; omega⟩
  have hmap : numberToBits n
      = ((List.range K).map fun i => (n >>> (8 * i)) % 256) ++ [(n >>> (8 * K)) % 256] := by
    rw [numberToBits_eq, hK, List.range_succ, List.map_append, List.map_cons, List.map_nil]
  have h1 : n < 256 ^ (K + 1) := by rw [← hK]; exact lt_base_pow_howManyBytes n
  have hpow : (2:Nat) ^ (8 * K) = 256 ^ K := by rw [pow_mul]; norm_num
  have h2 : n >>> (8 * K) < 256 := by
    rw [Nat.shiftRight_eq_div_pow, hpow, Nat.div_lt_iff_lt_mul (by positivity)]
    calc n < 256 ^ (K + 1) := h1
      _ = 256 * 256 ^ K := by ring
  rw [List.getLast_congr _ _ hmap, List.getLast_concat, Nat.mod_eq_of_lt h2, hK]
  norm_num

theorem numberToBits_getLast_ne_zero (n : Nat) (hn : 0 < n) :
    (numberToBits n).getLast (numberToBits_ne_nil n) ≠ 0 := by
  rw [numberToBits_getLast n hn]
  have h3 := base_pow_le_of_pos n hn
  rw [Nat.shiftRight_eq_div_pow]
  have hpow : (2:Nat) ^ (8 * (howManyBytes n - 1)) = 256 ^ (howManyBytes n - 1) := by
    rw [pow_mul]; norm_num
  rw [hpow]
  have := Nat.div_pos h3 (by positivity)
  omega

theorem numberToBits_eq_singleton_zero (n : Nat) (h : numberToBits n = [0]) : n = 0 := by
  have h1 := toNumber_ofNat n
  rw [show (Bits.ofNat n).toNumber = toNumberList (numberToBits n) from rfl, h] at h1
  simpa [toNumberList] using h1.symm

/-! ### Semantics of the bit view of a `Bits` value -/

theorem iter_isBitList (v : Bits) : IsBitList v.iter := by
  unfold Bits.iter
  split
  · intro x hx; simp at hx; omega
  · exact iterBytes_isBitList v.bytes

theorem bitsVal_iter (v : Bits) (h : ∀ b ∈ v.bytes, b < 256) :
    bitsVal v.iter = v.toNumber := by
  unfold Bits.iter
  split
  · rename_i h0
    unfold Bits.toNumber
    rw [h0]
    simp [bitsVal, toNumberList]
  · exact bitsVal_iterBytes v.bytes h

theorem bitsVal_iter_ofNat (n : Nat) : bitsVal (Bits.ofNat n).iter = n := by
  rw [bitsVal_iter (Bits.ofNat n) (numberToBits_lt n), toNumber_ofNat]

theorem iter_ofNat_pos (n : Nat) (hn : 0 < n) :
    (Bits.ofNat n).iter = iterBytes (numberToBits n) := by
  unfold Bits.iter
  split
  · rename_i h0
    exact absurd (numberToBits_eq_singleton_zero n h0) (by omega)
  · rfl

theorem size_shiftRight_add (n k : Nat) (h : 2 ^ k ≤ n) :
    Nat.size n = k + Nat.size (n >>> k) := by
  rw [Nat.shiftRight_eq_div_pow]
  have hk : (0:Nat) < 2 ^ k := by positivity
  have hq : 0 < n / 2 ^ k := Nat.div_pos h hk
  have hs : 0 < Nat.size (n / 2 ^ k) := Nat.size_pos.mpr hq
  apply le_antisymm
  · rw [Nat.size_le, pow_add]
    have h1 : n / 2 ^ k < 2 ^ Nat.size (n / 2 ^ k) := Nat.lt_size_self _
    calc n < 2 ^ Nat.size (n / 2 ^ k) * 2 ^ k := (Nat.div_lt_iff_lt_mul hk).mp h1
      _ = 2 ^ k * 2 ^ Nat.size (n / 2 ^ k) := mul_comm _ _
  · have h3 : 2 ^ (Nat.size (n / 2 ^ k) - 1) ≤ n / 2 ^ k := by
      rw [← Nat.lt_size]; omega
    have h4 : 2 ^ (k + Nat.size (n / 2 ^ k) - 1) ≤ n := by
      have hsplit : (2:Nat) ^ (k + Nat.size (n / 2 ^ k) - 1)
          = 2 ^ k * 2 ^ (Nat.size (n / 2 ^ k) - 1) := by
        rw [← pow_add]; congr 1; omega
      rw [hsplit]
      calc 2 ^ k * 2 ^ (Nat.size (n / 2 ^ k) - 1) ≤ 2 ^ k * (n / 2 ^ k) :=
            Nat.mul_le_mul_left _ h3
        _ = n / 2 ^ k * 2 ^ k := mul_comm _ _
        _ ≤ n := Nat.div_mul_le_self n (2 ^ k)
    have := Nat.lt_size.mpr h4
    omega

theorem iter_length_ofNat (n : Nat) (hn : 0 < n) :
    (Bits.ofNat n).iter.length = Nat.size n := by
  rw [iter_ofNat_pos n hn,
    iterBytes_length (numberToBits n) (numberToBits_ne_nil n) (numberToBits_lt n),
    numberToBits_length, numberToBits_getLast n hn]
  have hpow : (2:Nat) ^ (8 * (howManyBytes n - 1)) = 256 ^ (howManyBytes n - 1) := by
    rw [pow_mul]; norm_num
  exact (size_shiftRight_add n _ (by rw [hpow]; exact base_pow_le_of_pos n hn)).symm

theorem iter_ofNat_zero : (Bits.ofNat 0).iter = [0] := by
  unfold Bits.iter
  rw [if_pos ofNat_zero_bytes]

theorem size_eq_clog (n : Nat) (hn : 0 < n) : Nat.size n = Nat.clog 2 (n + 1) := by
  apply le_antisymm
  · rw [Nat.size_le]
    have h1 : n + 1 ≤ 2 ^ Nat.clog 2 (n + 1) :=
      (Nat.le_pow_iff_clog_le (one_lt_two : (1:Nat) < 2)).mpr le_rfl
    omega
  · rw [← Nat.le_pow_iff_clog_le (one_lt_two : (1:Nat) < 2)]
    have := Nat.lt_size_self n
    omega

/-! ### `zip_longest` and pair values -/

theorem zipLongest_length (xs : List Nat) : ∀ ys : List Nat,
    (zipLongest xs ys).length = max xs.length ys.length := by
  induction xs with
  | nil =>
      intro ys
      induction ys with
      | nil => simp [zipLongest]
      | cons b bs ihb => simp only [zipLongest, List.length_cons, List.length_nil, ihb]; omega
  | cons a as iha =>
      intro ys
      cases ys with
      | nil => simp only [zipLongest, List.length_cons, List.length_nil, iha []]; omega
      | cons b bs => simp only [zipLongest, List.length_cons, iha bs]; omega

/-- Sum value of zipped bit pairs (specification helper). -/
def pairsVal : List (Nat × Nat) → Nat
  | [] => 0
  | (a, b) :: rest => a + b + 2 * pairsVal rest

/-- Sum value of zipped bit pairs with the second component
complemented, as the subtractor sees them (specification helper). -/
def pairsValC : List (Nat × Nat) → Nat
  | [] => 0
  | (a, b) :: rest => a + (b ^^^ 1) + 2 * pairsValC rest

theorem pairsVal_zipLongest (xs : List Nat) : ∀ ys : List Nat,
    pairsVal (zipLongest xs ys) = bitsVal xs + bitsVal ys := by
  induction xs with
  | nil =>
      intro ys
      induction ys with
      | nil => simp [zipLongest, pairsVal, bitsVal]
      | cons b bs ihb => simp only [zipLongest, pairsVal, bitsVal, ihb]; ring
  | cons a as iha =>
      intro ys
      cases ys with
      | nil => simp only [zipLongest, pairsVal, bitsVal, iha []]; ring
      | cons b bs => simp only [zipLongest, pairsVal, bitsVal, iha bs]; ring

theorem bit_xor_one {b : Nat} (hb : b ≤ 1) : b ^^^ 1 = 1 - b := by
  interval_cases b <;> decide

theorem zipLongest_mem_bits {xs ys : List Nat} (hxs : IsBitList xs) (hys : IsBitList ys) :
    ∀ p ∈ zipLongest xs ys, p.1 ≤ 1 ∧ p.2 ≤ 1 := by
  induction xs generalizing ys with
  | nil =>
      induction ys with
      | nil => intro p hp; simp [zipLongest] at hp
      | cons b bs ihb =>
          intro p hp
          simp only [zipLongest, List.mem_cons] at hp
          rcases hp with rfl | hp
          · exact ⟨by omega, hys b (by simp)⟩
          · exact ihb (fun x hx => hys x (by simp [hx])) p hp
  | cons a as iha =>
      intro p hp
      cases ys with
      | nil =>
          simp only [zipLongest, List.mem_cons] at hp
          rcases hp with rfl | hp
          · exact ⟨hxs a (by simp), by omega⟩
          · exact iha (fun x hx => hxs x (by simp [hx])) (fun x hx => by simp at hx) p hp
      | cons b bs =>
          simp only [zipLongest, List.mem_cons] at hp
          rcases hp with rfl | hp
          · exact ⟨hxs a (by simp), hys b (by simp)⟩
          · exact iha (fun x hx => hxs x (by simp [hx]))
              (fun x hx => hys x (by simp [hx])) p hp

theorem pairsValC_zipLongest (xs : List Nat) : ∀ ys : List Nat, IsBitList ys →
    pairsValC (zipLongest xs ys) + bitsVal ys + 1
      = bitsVal xs + 2 ^ (zipLongest xs ys).length := by
  induction xs with
  | nil =>
      intro ys hys
      induction ys with
      | nil => simp [zipLongest, pairsValC, bitsVal]
      | cons b bs ihb =>
          have hb : b ≤ 1 := hys b (by simp)
          have ihb2 := ihb fun x hx => hys x (by simp [hx])
          have hB := bit_xor_one hb
          simp only [zipLongest, pairsValC, bitsVal, List.length_cons, pow_succ] at ihb2 ⊢
          omega
  | cons a as iha =>
      intro ys hys
      cases ys with
      | nil =>
          have ih2 := iha [] (by intro x hx; simp at hx)
          simp only [zipLongest, pairsValC, bitsVal, List.length_cons, pow_succ,
            Nat.zero_xor] at ih2 ⊢
          omega
      | cons b bs =>
          have hb : b ≤ 1 := hys b (by simp)
          have ih2 := iha bs fun x hx => hys x (by simp [hx])
          have hB := bit_xor_one hb
          simp only [zipLongest, pairsValC, bitsVal, List.length_cons, pow_succ] at ih2 ⊢
          omega

/-! ### The full adder on single bits -/

theorem fulladder_spec {a b c : Nat} (ha : a ≤ 1) (hb : b ≤ 1) (hc : c ≤ 1) :
    (fulladder a b c).1 + 2 * (fulladder a b c).2 = a + b + c
      ∧ (fulladder a b c).1 ≤ 1 ∧ (fulladder a b c).2 ≤ 1 := by
  interval_cases a <;> interval_cases b <;> interval_cases c <;> decide

/-! ### Correctness of the ripple-carry adder -/

theorem adderAux_eq (pairs : List (Nat × Nat)) : ∀ pos acc cin : Nat,
    (∀ p ∈ pairs, p.1 ≤ 1 ∧ p.2 ≤ 1) → cin ≤ 1 → acc < 2 ^ pos →
    adderAux pairs pos acc cin = acc + (pairsVal pairs + cin) * 2 ^ pos := by
  induction pairs with
  | nil =>
      intro pos acc cin hp hc ha
      simp only [adderAux, pairsVal]
      rw [lor_shiftLeft_eq cin pos ha]
      ring
  | cons p rest ih =>
      intro pos acc cin hp hc ha
      obtain ⟨a, b⟩ := p
      have hab := hp (a, b) (by simp)
      have ha1 : a ≤ 1 := hab.1
      have hb1 : b ≤ 1 := hab.2
      obtain ⟨hfa, hs1, hc1⟩ := fulladder_spec ha1 hb1 hc
      have hacc : acc ||| ((fulladder a b cin).1 <<< pos) < 2 ^ (pos + 1) := by
        rw [lor_shiftLeft_eq _ pos ha, pow_succ]
        rcases Nat.le_one_iff_eq_zero_or_eq_one.mp hs1 with h | h <;> rw [h] <;> omega
      simp only [adderAux]
      rw [ih (pos + 1) _ _ (fun q hq => hp q (by simp [hq])) hc1 hacc]
      rw [lor_shiftLeft_eq _ pos ha]
      simp only [pairsVal]
      rw [show a + b + 2 * pairsVal rest + cin
          = (fulladder a b cin).1 + 2 * (fulladder a b cin).2 + 2 * pairsVal rest from by
        omega]
      rw [pow_succ]
      ring

theorem adder_eq (n m : Bits) : adder n m = bitsVal n.iter + bitsVal m.iter := by
  unfold adder
  rw [adderAux_eq _ 0 0 0 (zipLongest_mem_bits (iter_isBitList n) (iter_isBitList m))
      (by omega) (by norm_num)]
  rw [pairsVal_zipLongest]
  ring

theorem adder_ofNat (a b : Nat) : adder (Bits.ofNat a) (Bits.ofNat b) = a + b := by
  rw [adder_eq, bitsVal_iter_ofNat, bitsVal_iter_ofNat]

/-! ### Correctness of the ripple-carry subtractor -/

theorem bit_add_two_mul_mod (s X M : Nat) (hs : s ≤ 1) (hM : 0 < M) :
    (s + 2 * X) % (2 * M) = s + 2 * (X % M) := by
  have h1 : X = M * (X / M) + X % M := (Nat.div_add_mod X M).symm
  have h2 : X % M < M := Nat.mod_lt X hM
  have h3 : (2 * M) * (X / M) = 2 * (M * (X / M)) := by ring
  calc (s + 2 * X) % (2 * M)
      = (s + 2 * (X % M) + (2 * M) * (X / M)) % (2 * M) := by congr 1; omega
    _ = (s + 2 * (X % M)) % (2 * M) := Nat.add_mul_mod_self_left _ _ _
    _ = s + 2 * (X % M) := Nat.mod_eq_of_lt (by omega)

theorem subtractorAux_eq (pairs : List (Nat × Nat)) : ∀ pos acc cin : Nat,
    (∀ p ∈ pairs, p.1 ≤ 1 ∧ p.2 ≤ 1) → cin ≤ 1 → acc < 2 ^ pos →
    subtractorAux pairs pos acc cin
      = acc + ((pairsValC pairs + cin) % 2 ^ pairs.length) * 2 ^ pos := by
  induction pairs with
  | nil =>
      intro pos acc cin hp hc ha
      simp [subtractorAux, pairsValC, Nat.mod_one]
  | cons p rest ih =>
      intro pos acc cin hp hc ha
      obtain ⟨a, b⟩ := p
      have hab := hp (a, b) (by simp)
      have ha1 : a ≤ 1 := hab.1
      have hb1 : b ≤ 1 := hab.2
      have hbx : b ^^^ 1 ≤ 1 := by rw [bit_xor_one hb1]; omega
      obtain ⟨hfa, hs1, hc1⟩ := fulladder_spec ha1 hbx hc
      have hacc : acc ||| ((fulladder a (b ^^^ 1) cin).1 <<< pos) < 2 ^ (pos + 1) := by
        rw [lor_shiftLeft_eq _ pos ha, pow_succ]
        rcases Nat.le_one_iff_eq_zero_or_eq_one.mp hs1 with h | h <;> rw [h] <;> omega
      simp only [subtractorAux]
      rw [ih (pos + 1) _ _ (fun q hq => hp q (by simp [hq])) hc1 hacc]
      rw [lor_shiftLeft_eq _ pos ha]
      simp only [pairsValC, List.length_cons]
      have hmod : (a + (b ^^^ 1) + 2 * pairsValC rest + cin) % 2 ^ (rest.length + 1)
          = (fulladder a (b ^^^ 1) cin).1
            + 2 * ((pairsValC rest + (fulladder a (b ^^^ 1) cin).2) % 2 ^ rest.length) := by
        rw [show a + (b ^^^ 1) + 2 * pairsValC rest + cin
            = (fulladder a (b ^^^ 1) cin).1
              + 2 * (pairsValC rest + (fulladder a (b ^^^ 1) cin).2) from by omega]
        rw [pow_succ']
        exact bit_add_two_mul_mod _ _ _ hs1 (by positivity)
      rw [hmod, pow_succ]
      ring

theorem subtractor_eq (n m : Bits) :
    subtractor n m
      = (bitsVal n.iter + 2 ^ (zipLongest n.iter m.iter).length - bitsVal m.iter)
        % 2 ^ (zipLongest n.iter m.iter).length := by
  unfold subtractor
  rw [subtractorAux_eq _ 0 0 1 (zipLongest_mem_bits (iter_isBitList n) (iter_isBitList m))
      (by omega) (by norm_num)]
  have hC := pairsValC_zipLongest n.iter m.iter (iter_isBitList m)
  have hv := bitsVal_lt (iter_isBitList m)
  have hlen : m.iter.length ≤ (zipLongest n.iter m.iter).length := by
    rw [zipLongest_length]; exact le_max_right _ _
  have hvL : bitsVal m.iter < 2 ^ (zipLongest n.iter m.iter).length :=
    lt_of_lt_of_le hv (Nat.pow_le_pow_right (by norm_num) hlen)
  have heq : pairsValC (zipLongest n.iter m.iter) + 1
      = bitsVal n.iter + 2 ^ (zipLongest n.iter m.iter).length - bitsVal m.iter := by
    omega
  rw [pow_zero, mul_one, Nat.zero_add, heq]

theorem lt_two_pow_zip_left (n m : Bits) :
    bitsVal n.iter < 2 ^ (zipLongest n.iter m.iter).length := by
  have h2 := bitsVal_lt (iter_isBitList n)
  have h3 : n.iter.length ≤ (zipLongest n.iter m.iter).length := by
    rw [zipLongest_length]; exact le_max_left _ _
  exact lt_of_lt_of_le h2 (Nat.pow_le_pow_right (by norm_num) h3)

theorem lt_two_pow_zip_right (n m : Bits) :
    bitsVal m.iter < 2 ^ (zipLongest n.iter m.iter).length := by
  have h2 := bitsVal_lt (iter_isBitList m)
  have h3 : m.iter.length ≤ (zipLongest n.iter m.iter).length := by
    rw [zipLongest_length]; exact le_max_right _ _
  exact lt_of_lt_of_le h2 (Nat.pow_le_pow_right (by norm_num) h3)

theorem subtractor_ofNat_sub {a b : Nat} (h : b ≤ a) :
    subtractor (Bits.ofNat a) (Bits.ofNat b) = a - b := by
  have ha := lt_two_pow_zip_left (Bits.ofNat a) (Bits.ofNat b)
  rw [bitsVal_iter_ofNat] at ha
  rw [subtractor_eq, bitsVal_iter_ofNat, bitsVal_iter_ofNat]
  rw [show a + 2 ^ (zipLongest (Bits.ofNat a).iter (Bits.ofNat b).iter).length - b
      = 2 ^ (zipLongest (Bits.ofNat a).iter (Bits.ofNat b).iter).length + (a - b) from by
    omega]
  rw [Nat.add_mod_left, Nat.mod_eq_of_lt (by omega)]

theorem iter_length_le_of_le {a b : Nat} (h : a ≤ b) (hb : 0 < b) :
    (Bits.ofNat a).iter.length ≤ (Bits.ofNat b).iter.length := by
  rcases Nat.eq_zero_or_pos a with h0 | h0
  · subst h0
    rw [iter_ofNat_zero, iter_length_ofNat b hb]
    have := Nat.size_pos.mpr hb
    simpa using this
  · rw [iter_length_ofNat a h0, iter_length_ofNat b hb]
    exact Nat.size_le_size h

theorem subtractor_ofNat_wrap {a b : Nat} (h : a < b) :
    subtractor (Bits.ofNat a) (Bits.ofNat b)
      = 2 ^ (Bits.ofNat b).iter.length + a - b := by
  have hmax : (zipLongest (Bits.ofNat a).iter (Bits.ofNat b).iter).length
      = (Bits.ofNat b).iter.length := by
    rw [zipLongest_length]
    exact Nat.max_eq_right (iter_length_le_of_le (le_of_lt h) (by omega))
  have hb := lt_two_pow_zip_right (Bits.ofNat a) (Bits.ofNat b)
  rw [bitsVal_iter_ofNat, hmax] at hb
  rw [subtractor_eq, bitsVal_iter_ofNat, bitsVal_iter_ofNat, hmax]
  rw [show a + 2 ^ (Bits.ofNat b).iter.length - b
      = 2 ^ (Bits.ofNat b).iter.length + a - b from by omega]
  apply Nat.mod_eq_of_lt
  omega

/-! ### Correctness of the shift-and-add multiplier -/

theorem multiplierAux_eq (nv : Nat) (bits : List Nat) : ∀ av shifter : Nat,
    IsBitList bits →
    (multiplierAux (Bits.ofNat nv) bits (Bits.ofNat av) shifter).toNumber
      = av + bitsVal bits * (nv * 2 ^ shifter) := by
  induction bits with
  | nil =>
      intro av shifter hb
      simp only [multiplierAux, bitsVal, toNumber_ofNat]
      ring
  | cons bit rest ih =>
      intro av shifter hb
      have hbit : bit ≤ 1 := hb bit (by simp)
      simp only [multiplierAux]
      rcases Nat.le_one_iff_eq_zero_or_eq_one.mp hbit with h0 | h1
      · subst h0
        rw [if_neg (by omega)]
        rw [ih av (shifter + 1) fun x hx => hb x (by simp [hx])]
        simp only [bitsVal]
        rw [pow_succ]
        ring
      · subst h1
        rw [if_pos rfl]
        have hshift : (Bits.ofNat nv).shiftLeft (Bits.ofNat shifter)
            = Bits.ofNat (nv * 2 ^ shifter) := by
          unfold Bits.shiftLeft
          rw [toNumber_ofNat, toNumber_ofNat, Nat.shiftLeft_eq]
        rw [hshift, adder_ofNat]
        rw [ih (av + nv * 2 ^ shifter) (shifter + 1) fun x hx => hb x (by simp [hx])]
        simp only [bitsVal]
        rw [pow_succ]
        ring

theorem multiplier_ofNat (a b : Nat) :
    multiplier (Bits.ofNat a) (Bits.ofNat b) = a * b := by
  unfold multiplier
  rw [multiplierAux_eq a (Bits.ofNat b).iter 0 0 (iter_isBitList _)]
  rw [bitsVal_iter_ofNat, pow_zero]
  ring

/-! ### Correctness of the restoring divider -/

theorem dividerLoop_eq (mv : Nat) (hm : 0 < mv) (bits : List Nat) :
    ∀ quo rem : Nat, IsBitList bits → rem < mv →
    (dividerLoop (Bits.ofNat mv) bits quo rem).1 * mv
        + (dividerLoop (Bits.ofNat mv) bits quo rem).2
      = (quo * mv + rem) * 2 ^ bits.length + bitsVal bits.reverse
    ∧ (dividerLoop (Bits.ofNat mv) bits quo rem).2 < mv := by
  induction bits with
  | nil =>
      intro quo rem hb hrem
      simp only [dividerLoop, List.reverse_nil, bitsVal, List.length_nil, pow_zero]
      exact ⟨by ring, hrem⟩
  | cons bit rest ih =>
      intro quo rem hb hrem
      have hbit : bit ≤ 1 := hb bit (by simp)
      have hb2 : IsBitList rest := fun x hx => hb x (by simp [hx])
      have hrev : bitsVal (bit :: rest).reverse
          = bitsVal rest.reverse + bit * 2 ^ rest.length := by
        rw [List.reverse_cons, bitsVal_append, List.length_reverse]
        simp only [bitsVal]
        ring
      have hshl : rem <<< 1 = 2 * rem := by rw [Nat.shiftLeft_eq]; ring
      have hrem2 : (if bit ≠ 0 then (rem <<< 1) ^^^ 1 else rem <<< 1) = 2 * rem + bit := by
        rcases Nat.le_one_iff_eq_zero_or_eq_one.mp hbit with h0 | h1
        · subst h0; rw [if_neg (by omega), hshl]; omega
        · subst h1; rw [if_pos (by omega), shiftLeft_one_xor_one]
      simp only [dividerLoop, hrem2, toNumber_ofNat]
      split
      · rename_i hge
        rw [shiftLeft_one_xor_one quo, subtractor_ofNat_sub hge]
        have hrem' : 2 * rem + bit - mv < mv := by omega
        obtain ⟨ih1, ih2⟩ := ih (2 * quo + 1) (2 * rem + bit - mv) hb2 hrem'
        refine ⟨?_, ih2⟩
        rw [ih1, hrev, List.length_cons, pow_succ]
        have hstep : (2 * quo + 1) * mv + (2 * rem + bit - mv)
            = 2 * (quo * mv + rem) + bit := by
          have hexp : (2 * quo + 1) * mv = 2 * (quo * mv) + mv := by ring
          have hexp2 : 2 * (quo * mv + rem) = 2 * (quo * mv) + 2 * rem := by ring
          omega
        rw [hstep]
        ring
      · rename_i hlt
        push_neg at hlt
        rw [Nat.shiftLeft_eq quo 1]
        have hrem' : 2 * rem + bit < mv := hlt
        obtain ⟨ih1, ih2⟩ := ih (quo * 2 ^ 1) (2 * rem + bit) hb2 hrem'
        refine ⟨?_, ih2⟩
        rw [ih1, hrev, List.length_cons, pow_succ]
        ring

theorem divider_ofNat (n m : Nat) (hm : 0 < m) :
    ∃ q r, divider (Bits.ofNat n) (Bits.ofNat m) = some (q, r)
      ∧ q * m + r = n ∧ r < m := by
  unfold divider
  rw [toNumber_ofNat, if_neg (by omega)]
  have hrevbits : IsBitList (Bits.ofNat n).reversedBits := by
    unfold Bits.reversedBits
    intro x hx
    exact iter_isBitList (Bits.ofNat n) x (List.mem_reverse.mp hx)
  obtain ⟨h1, h2⟩ :=
    dividerLoop_eq m hm (Bits.ofNat n).reversedBits 0 0 hrevbits hm
  have hrr : (Bits.ofNat n).reversedBits.reverse = (Bits.ofNat n).iter := by
    unfold Bits.reversedBits
    exact List.reverse_reverse _
  rw [hrr, bitsVal_iter_ofNat] at h1
  refine ⟨(dividerLoop (Bits.ofNat m) (Bits.ofNat n).reversedBits 0 0).1,
          (dividerLoop (Bits.ofNat m) (Bits.ofNat n).reversedBits 0 0).2, rfl, ?_, h2⟩
  rw [h1]
  ring

/-! ### The claims -/

/-- C1: for every non-negative integer n and every positive integer m,
`divider(Bits(n), Bits(m))` returns a pair (q, r) of non-negative
integers with `q * m + r = n` and `0 ≤ r < m`. -/
theorem divider_quotient_remainder (n m : Nat) (hm : 0 < m) :
    ∃ q r : Nat, divider (Bits.ofNat n) (Bits.ofNat m) = some (q, r)
      ∧ q * m + r = n ∧ r < m :=
  divider_ofNat n m hm

theorem divider_quotient_remainder_witness :
    0 < 3 ∧ ∃ q r : Nat, divider (Bits.ofNat 11) (Bits.ofNat 3) = some (q, r)
      ∧ q * 3 + r = 11 ∧ r < 3 :=
  ⟨by decide, divider_quotient_remainder 11 3 (by decide)⟩

/-- C2: for all non-negative integers a and b,
`adder(Bits(a), Bits(b)) = a + b`; in particular adding `Bits(0)`
returns the other operand's value, and `adder` is commutative. -/
theorem adder_laws (a b : Nat) :
    adder (Bits.ofNat a) (Bits.ofNat b) = a + b
      ∧ adder (Bits.ofNat a) (Bits.ofNat 0) = (Bits.ofNat a).toNumber
      ∧ adder (Bits.ofNat a) (Bits.ofNat b) = adder (Bits.ofNat b) (Bits.ofNat a) := by
  refine ⟨adder_ofNat a b, ?_, ?_⟩
  · rw [adder_ofNat, toNumber_ofNat]; ring
  · rw [adder_ofNat, adder_ofNat]; ring

/-- C3: for all integers a ≥ b ≥ 0,
`subtractor(Bits(a), Bits(b)) = a - b`, equivalently
`subtractor(Bits(a), Bits(b)) + b = a`. -/
theorem subtractor_correct (a b : Nat) (h : b ≤ a) :
    subtractor (Bits.ofNat a) (Bits.ofNat b) = a - b
      ∧ subtractor (Bits.ofNat a) (Bits.ofNat b) + b = a := by
  have h1 := subtractor_ofNat_sub h
  exact ⟨h1, by omega⟩

theorem subtractor_correct_witness :
    3 ≤ 256 ∧ (subtractor (Bits.ofNat 256) (Bits.ofNat 3) = 256 - 3
      ∧ subtractor (Bits.ofNat 256) (Bits.ofNat 3) + 3 = 256) :=
  ⟨by decide, subtractor_correct 256 3 (by decide)⟩

/-- C4: for all non-negative integers a and b,
`multiplier(Bits(a), Bits(b)) = a * b`, including the zero cases, and
multiplying by `Bits(1)` returns the other operand's value. -/
theorem multiplier_laws (a b : Nat) :
    multiplier (Bits.ofNat a) (Bits.ofNat b) = a * b
      ∧ multiplier (Bits.ofNat a) (Bits.ofNat 0) = 0
      ∧ multiplier (Bits.ofNat a) (Bits.ofNat 1) = (Bits.ofNat a).toNumber := by
  refine ⟨multiplier_ofNat a b, ?_, ?_⟩
  · rw [multiplier_ofNat]; ring
  · rw [multiplier_ofNat, toNumber_ofNat]; ring

/-- C5: round trip, for every non-negative integer n,
`Bits(n).to_number() = n`. -/
theorem to_integer_from_integer (n : Nat) : (Bits.ofNat n).toNumber = n :=
  toNumber_ofNat n

/-- C6: `divider` fails (raises `ZeroDivisionError`, modelled as `none`)
if and only if the divisor's value is zero; in particular dividing by
`Bits(0)` fails for every dividend, before any quotient/remainder bit
is produced, and no other input makes `divider` fail. -/
theorem divider_zero_iff (n m : Bits) :
    divider n (Bits.ofNat 0) = none ∧ (divider n m = none ↔ m.toNumber = 0) := by
  constructor
  · unfold divider
    rw [if_pos (toNumber_ofNat 0)]
  · unfold divider
    split
    · rename_i h; simp [h]
    · rename_i h; simp [h]

/-- C7: for every n > 0 the forward (LSB-first) bit sequence of
`Bits(n)` has exactly ⌈log2(n+1)⌉ bits — the true bit length of n, with
no extraneous high zero bits — and the bit sequence of `Bits(0)` is the
single bit 0, not the empty sequence. -/
theorem iter_bit_length (n : Nat) (hn : 0 < n) :
    (Bits.ofNat n).iter.length = Nat.clog 2 (n + 1)
      ∧ (Bits.ofNat 0).iter = [0] :=
  ⟨by rw [iter_length_ofNat n hn, size_eq_clog n hn], iter_ofNat_zero⟩

theorem iter_bit_length_witness :
    0 < 5 ∧ ((Bits.ofNat 5).iter.length = Nat.clog 2 (5 + 1)
      ∧ (Bits.ofNat 0).iter = [0]) :=
  ⟨by decide, iter_bit_length 5 (by decide)⟩

/-- C8: `Bits(n)` is the canonical minimal byte encoding: at least one
byte, `Bits(0)` is exactly the single zero byte, and for n > 0 the
most-significant (last) byte is non-zero. -/
theorem ofNat_canonical (n : Nat) :
    1 ≤ (Bits.ofNat n).bytes.length
      ∧ (Bits.ofNat 0).bytes = [0]
      ∧ (0 < n → (Bits.ofNat n).bytes.getLast? ≠ some 0) := by
  refine ⟨?_, ofNat_zero_bytes, ?_⟩
  · show 1 ≤ (numberToBits n).length
    rw [numberToBits_length]
    exact howManyBytes_pos n
  · intro hn
    show (numberToBits n).getLast? ≠ some 0
    rw [List.getLast?_eq_getLast _ (numberToBits_ne_nil n)]
    intro hcontra
    exact numberToBits_getLast_ne_zero n hn (Option.some.inj hcontra)

theorem ofNat_canonical_witness :
    1 ≤ (Bits.ofNat 5).bytes.length ∧ (Bits.ofNat 0).bytes = [0]
      ∧ (Bits.ofNat 5).bytes.getLast? ≠ some 0 :=
  ⟨(ofNat_canonical 5).1, (ofNat_canonical 5).2.1, (ofNat_canonical 5).2.2 (by decide)⟩

/-- C9: for every `Bits` value v, the reversed (MSB-first) bit sequence
is exactly the reverse of the forward (LSB-first) bit sequence. -/
theorem reversedBits_is_reverse (v : Bits) : v.reversedBits = v.iter.reverse :=
  rfl

/-- C10 (implicit): when 0 ≤ n < m, `subtractor(Bits(n), Bits(m))`
returns the wraparound value (n - m) mod 2^L, where L is the bit length
of m (the longer operand); in particular the result is below 2^L. -/
theorem subtractor_wraparound (n m : Nat) (h : n < m) :
    ((subtractor (Bits.ofNat n) (Bits.ofNat m) : Nat) : Int)
        = ((n : Int) - (m : Int)) % 2 ^ (Bits.ofNat m).iter.length
      ∧ subtractor (Bits.ofNat n) (Bits.ofNat m) < 2 ^ (Bits.ofNat m).iter.length
      ∧ (Bits.ofNat m).iter.length = Nat.clog 2 (m + 1) := by
  have hm2 : m < 2 ^ (Bits.ofNat m).iter.length := by
    have h1 := bitsVal_lt (iter_isBitList (Bits.ofNat m))
    rwa [bitsVal_iter_ofNat] at h1
  have hw := subtractor_ofNat_wrap h
  refine ⟨?_, ?_, ?_⟩
  · rw [hw]
    have hmi : (m : Int) < 2 ^ (Bits.ofNat m).iter.length := by exact_mod_cast hm2
    have hni : (n : Int) < m := by exact_mod_cast h
    have hcast : ((2 ^ (Bits.ofNat m).iter.length + n - m : Nat) : Int)
        = 2 ^ (Bits.ofNat m).iter.length + (n : Int) - m := by
      have hle : m ≤ 2 ^ (Bits.ofNat m).iter.length + n := by omega
      push_cast [Nat.cast_sub hle]
      ring
    rw [hcast]
    have hself : ((n : Int) - m + 2 ^ (Bits.ofNat m).iter.length * 1)
        % 2 ^ (Bits.ofNat m).iter.length
        = ((n : Int) - m) % 2 ^ (Bits.ofNat m).iter.length :=
      Int.add_mul_emod_self_left _ _ _
    rw [mul_one] at hself
    rw [← hself, Int.emod_eq_of_lt (by omega) (by omega)]
    ring
  · rw [hw]; omega
  · rw [iter_length_ofNat m (by omega), size_eq_clog m (by omega)]

theorem subtractor_wraparound_witness :
    1 < 2 ∧ (((subtractor (Bits.ofNat 1) (Bits.ofNat 2) : Nat) : Int)
        = ((1 : Int) - (2 : Int)) % 2 ^ (Bits.ofNat 2).iter.length
      ∧ subtractor (Bits.ofNat 1) (Bits.ofNat 2) < 2 ^ (Bits.ofNat 2).iter.length
      ∧ (Bits.ofNat 2).iter.length = Nat.clog 2 (2 + 1)) :=
  ⟨by decide, subtractor_wraparound 1 2 (by decide)⟩
